import Mathlib

/-!
# Verification of the `empath` access-tracking store

A shallow embedding of `src/main.rs` of the `empath` repository: a CLI tool
that records which files are accessed inside a Git repository (rows of a
SQLite table) and ranks them by recency, frequency and "frecency".

Modelling conventions:

* The SQLite table `empath (repo text, path text, time text, unique (repo,
  path, time)) strict` is modelled as a `List Event` in row (insertion)
  order.  The whole database handle, which can also be uninitialised (table
  absent), is `Option (List Event)` with `none` for "table does not exist".
* Paths (`camino::Utf8PathBuf`) are modelled as their lists of components
  (`FsPath := List String`); `Path::starts_with` in `camino` is component-wise
  prefix, i.e. `List.isPrefixOf`.  Equality of stored `text` columns is
  equality of paths.
* Timestamps (`jiff::Timestamp`, stored as sortable text; read back through
  `julianday`) are modelled as rationals measured in days, assuming the text
  encoding is order-faithful, so that SQL `max(time)` is the numeric maximum
  and `julianday('now') - julianday(time)` is subtraction.
* The `f64` frecency weights are idealised as real numbers.
* Rust's `HashMap` iterates its keys in an unspecified (randomised, per-map)
  order; `frecent` is therefore modelled with an explicit `order` parameter
  ranging over the permutations of the key set.
* Fallible operations (`sqlx` queries returning `Result`) are `Except String`.
-/

namespace Empath

/-- A filesystem path as its list of components.  `camino::Utf8PathBuf`
compares by components, and `Path::starts_with` is component-wise prefix. -/
abbrev FsPath := List String

/-- One row of the `empath` table: `(repo text, path text, time text)`.
`time` is modelled as a rational (days), see the module docstring. -/
structure Event where
  repo : FsPath
  path : FsPath
  time : ℚ
deriving DecidableEq

/-- `sqlite_init` runs `create table if not exists empath (... unique (repo,
path, time)) strict`: on an uninitialised database it creates the empty
table, on an initialised one it leaves every row unchanged.  It does not
fail on an already-initialised database (`if not exists`). -/
def sqlite_init : Option (List Event) → Option (List Event)
  | none => some []
  | some db => some db

/-- `record` runs `insert into empath (repo, path, time) values ($1, $2, $3)`.
This is a plain `insert` (not `insert or ignore`): when the row already
exists, the `unique (repo, path, time)` constraint of the schema makes the
insert fail, and `record` returns the error (`?` in the Rust propagates it). -/
def record (db : List Event) (repo path : FsPath) (time : ℚ) :
    Except String (List Event) :=
  if (⟨repo, path, time⟩ : Event) ∈ db then
    Except.error "UNIQUE constraint failed: empath.repo, empath.path, empath.time"
  else
    Except.ok (db ++ [⟨repo, path, time⟩])

/-- The rows remaining after `delete from empath where repo = $1 and
path = $2`: every row matching the pair is removed, whatever its timestamp;
the rest are kept in order. -/
def deleteRows (db : List Event) (repo path : FsPath) : List Event :=
  db.filter fun e => !(e.repo == repo && e.path == path)

/-- `forget` runs the `delete` above.  A `delete` matching no rows is not an
error, so `forget` always succeeds. -/
def forget (db : List Event) (repo path : FsPath) :
    Except String (List Event) :=
  Except.ok (deleteRows db repo path)

/-- The rows selected by `where repo = $1`, in row order. -/
def rowsFor (db : List Event) (repo : FsPath) : List Event :=
  db.filter fun e => e.repo == repo

/-- The distinct paths among the rows of `repo` (the effect of SQL
`group by path`, and the key set of the `HashMap` in `frecent`).  SQL and
the hash map leave the order of the groups unspecified; the model fixes
`List.dedup` order as its deterministic representative. -/
def pathsOf (db : List Event) (repo : FsPath) : List FsPath :=
  ((rowsFor db repo).map Event.path).dedup

/-- SQL `max(time)` over the rows of `(repo, p)` (`0` when there are none;
`recent` only consults it for paths that have rows). -/
def maxTime (db : List Event) (repo p : FsPath) : ℚ :=
  ((((rowsFor db repo).filter fun e => e.path == p).map Event.time).maximum).unbot' 0

/-- SQL `count(*)` over the rows of `(repo, p)`. -/
def count (db : List Event) (repo p : FsPath) : ℕ :=
  ((rowsFor db repo).filter fun e => e.path == p).length

/-- `recent` runs `select path from empath where repo = $1 group by path
order by max(time) desc`: the distinct paths, ordered by their maximum
timestamp descending.  SQL leaves the order of equal keys unspecified; the
model uses a stable insertion sort over `pathsOf`. -/
def recent (db : List Event) (repo : FsPath) : List FsPath :=
  List.insertionSort (fun a b => maxTime db repo b ≤ maxTime db repo a)
    (pathsOf db repo)

/-- `frequent` runs `select path from empath where repo = $1 group by path
order by count(*) desc`: the distinct paths, ordered by row count
descending (tie order unspecified in SQL, stable sort in the model). -/
def frequent (db : List Event) (repo : FsPath) : List FsPath :=
  List.insertionSort (fun a b => count db repo b ≤ count db repo a)
    (pathsOf db repo)

/-- `let half_life_days = 30.0`. -/
def half_life_days : ℝ := 30

/-- `julianday('now') - julianday(time) as age_days`: the age of an event in
fractional days at query time `now`. -/
def ageDays (now time : ℚ) : ℚ := now - time

/-- `let weight = 2f64.powf(-age_days / half_life_days)`, idealised over ℝ. -/
noncomputable def weight (now time : ℚ) : ℝ :=
  (2 : ℝ) ^ (-((ageDays now time : ℚ) : ℝ) / half_life_days)

/-- The summed weight a path accumulates in the `scores` hash map of
`frecent`: `*scores.entry(path).or_insert(0.0) += weight` over the selected
rows. -/
noncomputable def score (db : List Event) (repo : FsPath) (now : ℚ) (p : FsPath) : ℝ :=
  (((rowsFor db repo).filter fun e => e.path == p).map fun e => weight now e.time).sum

open Classical in
/-- The tail of `frecent`: `scores.into_iter().collect::<Vec<_>>()` lists the
hash map entries in the map's unspecified iteration order (the `order`
parameter, a permutation of `pathsOf db repo`), and
`items.sort_by(|(_, a), (_, b)| b.partial_cmp(a) ...)` stably sorts them by
score descending. -/
noncomputable def frecentFrom (db : List Event) (repo : FsPath) (now : ℚ)
    (order : List FsPath) : List FsPath :=
  List.insertionSort (fun a b => score db repo now b ≤ score db repo now a) order

/-- The `Command::Record` arm of `main`: for each (already canonicalised,
absolute) input path, record it only `if path.starts_with(&repo)`, silently
skipping paths outside the repository root; a failing `record` aborts the
remaining paths (`?`). -/
def recordCommand (db : List Event) (repo : FsPath) (time : ℚ) :
    List FsPath → Except String (List Event)
  | [] => Except.ok db
  | p :: rest =>
    if repo.isPrefixOf p then
      match record db repo p time with
      | Except.ok db₂ => recordCommand db₂ repo time rest
      | Except.error m => Except.error m
    else
      recordCommand db repo time rest

/-! ## Basic lemmas about the embedding -/

/-- A path is among the grouped paths of a repository exactly when some row
of that repository carries it. -/
theorem mem_pathsOf {db : List Event} {repo p : FsPath} :
    p ∈ pathsOf db repo ↔ ∃ e ∈ db, e.repo = repo ∧ e.path = p := by
  simp only [pathsOf, rowsFor, List.mem_dedup, List.mem_map, List.mem_filter,
    beq_iff_eq]
  constructor
  · rintro ⟨e, ⟨he, hrepo⟩, hpath⟩
    exact ⟨e, he, hrepo, hpath⟩
  · rintro ⟨e, he, hrepo, hpath⟩
    exact ⟨e, ⟨he, hrepo⟩, hpath⟩

/-- The grouped paths of a repository are distinct. -/
theorem pathsOf_nodup (db : List Event) (repo : FsPath) : (pathsOf db repo).Nodup :=
  List.nodup_dedup _

/-- Sorting descending by an arbitrary key yields a list sorted descending
by that key (the key-comparison relation is a total preorder). -/
theorem sorted_key_desc {β : Type} [LinearOrder β] (key : FsPath → β)
    [DecidableRel fun a b : FsPath => key b ≤ key a] (l : List FsPath) :
    List.Sorted (fun a b => key b ≤ key a)
      (List.insertionSort (fun a b => key b ≤ key a) l) := by
  haveI : IsTotal FsPath fun a b => key b ≤ key a :=
    ⟨fun a b => le_total (key b) (key a)⟩
  haveI : IsTrans FsPath fun a b => key b ≤ key a :=
    ⟨fun a b c hab hbc => le_trans hbc hab⟩
  exact List.sorted_insertionSort _ l

/-! ## The claims -/

/-- C1: the spec requires `record` to absorb an exact-duplicate
(repository, path, timestamp) triple silently; the code instead runs a plain
`insert` against the `unique (repo, path, time)` constraint, so the second
identical `record` returns the constraint violation as an error.  Starting
from an empty store, the first `record` succeeds and stores the one event,
and the immediately repeated identical `record` errors. -/
theorem record_duplicate_errors (r p : FsPath) (t : ℚ) :
    record [] r p t = Except.ok [⟨r, p, t⟩] ∧
    record [⟨r, p, t⟩] r p t =
      Except.error "UNIQUE constraint failed: empath.repo, empath.path, empath.time" := by
  constructor
  · simp [record]
  · simp [record]

/-- C9: schema creation is idempotent: running `sqlite_init` on an
already-initialised store is not an error and leaves every stored event
unchanged, and running it twice equals running it once. -/
theorem sqlite_init_idempotent (s : Option (List Event)) (db : List Event) :
    sqlite_init (sqlite_init s) = sqlite_init s ∧ sqlite_init (some db) = some db := by
  constructor
  · cases s <;> rfl
  · rfl

/-- C10: a canonicalised input path that does not lie inside the repository
root is silently skipped by the record command: processing it is the same as
not passing it at all, and a record command consisting only of such a path
succeeds and leaves the store unchanged. -/
theorem recordCommand_skips_outside (db : List Event) (repo : FsPath) (t : ℚ)
    (p : FsPath) (rest : List FsPath) (h : repo.isPrefixOf p = false) :
    recordCommand db repo t (p :: rest) = recordCommand db repo t rest ∧
    recordCommand db repo t [p] = Except.ok db := by
  constructor
  · simp [recordCommand, h]
  · simp [recordCommand, h]

/-- Witness for C10 at a concrete store and path. -/
theorem recordCommand_skips_outside_witness :
    recordCommand [] ["home", "r"] 0 [["tmp", "x"]] = Except.ok [] :=
  (recordCommand_skips_outside [] ["home", "r"] 0 ["tmp", "x"] [] (by decide)).2

/-- C4: `recent` groups the stored events of the repository by path, takes
the maximum timestamp per path, and returns the paths ordered by that
maximum descending (its output is a permutation of the grouped paths,
sorted descending by `maxTime`); in particular, with one event for path A
at day 0 and one for path B at day 1, it returns [B, A]. -/
theorem recent_ordering (db : List Event) (r pA pB : FsPath) (tA tB : ℚ)
    (hne : pA ≠ pB) (hlt : tA < tB) :
    (recent db r).Perm (pathsOf db r) ∧
    List.Sorted (fun a b => maxTime db r b ≤ maxTime db r a) (recent db r) ∧
    recent [⟨r, pA, tA⟩, ⟨r, pB, tB⟩] r = [pB, pA] := by
  refine ⟨List.perm_insertionSort _ _, sorted_key_desc (maxTime db r) _, ?_⟩
  have hpaths : pathsOf [⟨r, pA, tA⟩, ⟨r, pB, tB⟩] r = [pA, pB] := by
    simp [pathsOf, rowsFor, List.dedup_cons_of_not_mem, hne]
  have hA : maxTime [⟨r, pA, tA⟩, ⟨r, pB, tB⟩] r pA = tA := by
    simp [maxTime, rowsFor, Ne.symm hne]
  have hB : maxTime [⟨r, pA, tA⟩, ⟨r, pB, tB⟩] r pB = tB := by
    simp [maxTime, rowsFor, hne]
  rw [recent, hpaths]
  simp only [List.insertionSort, List.orderedInsert]
  rw [if_neg (by rw [hA, hB]; exact not_le.mpr hlt)]

/-- Witness for C4: events for A at day 0 and B at day 1 give [B, A]. -/
theorem recent_ordering_witness :
    recent [⟨["r"], ["A"], 0⟩, ⟨["r"], ["B"], 1⟩] ["r"] = [["B"], ["A"]] :=
  (recent_ordering [⟨["r"], ["A"], 0⟩, ⟨["r"], ["B"], 1⟩] ["r"] ["A"] ["B"] 0 1
    (by decide) (by norm_num)).2.2

/-- C5: `frequent` groups the stored events of the repository by path and
returns the paths ordered by event count descending, whatever the events'
timestamps (its output is a permutation of the grouped paths, sorted
descending by `count`); in particular, with 5 events for path A and 2 for
path B at arbitrary timestamps, it returns [A, B]. -/
theorem frequent_ordering (db : List Event) (r pA pB : FsPath)
    (t1 t2 t3 t4 t5 u1 u2 : ℚ) (hne : pA ≠ pB) :
    (frequent db r).Perm (pathsOf db r) ∧
    List.Sorted (fun a b => count db r b ≤ count db r a) (frequent db r) ∧
    frequent [⟨r, pA, t1⟩, ⟨r, pA, t2⟩, ⟨r, pA, t3⟩, ⟨r, pA, t4⟩, ⟨r, pA, t5⟩,
      ⟨r, pB, u1⟩, ⟨r, pB, u2⟩] r = [pA, pB] := by
  refine ⟨List.perm_insertionSort _ _, sorted_key_desc (count db r) _, ?_⟩
  have hpaths : pathsOf [⟨r, pA, t1⟩, ⟨r, pA, t2⟩, ⟨r, pA, t3⟩, ⟨r, pA, t4⟩,
      ⟨r, pA, t5⟩, ⟨r, pB, u1⟩, ⟨r, pB, u2⟩] r = [pA, pB] := by
    simp [pathsOf, rowsFor, List.dedup_cons_of_not_mem, List.dedup_cons_of_mem, hne]
  have hA : count [⟨r, pA, t1⟩, ⟨r, pA, t2⟩, ⟨r, pA, t3⟩, ⟨r, pA, t4⟩,
      ⟨r, pA, t5⟩, ⟨r, pB, u1⟩, ⟨r, pB, u2⟩] r pA = 5 := by
    simp [count, rowsFor, Ne.symm hne]
  have hB : count [⟨r, pA, t1⟩, ⟨r, pA, t2⟩, ⟨r, pA, t3⟩, ⟨r, pA, t4⟩,
      ⟨r, pA, t5⟩, ⟨r, pB, u1⟩, ⟨r, pB, u2⟩] r pB = 2 := by
    simp [count, rowsFor, hne]
  rw [frequent, hpaths]
  simp only [List.insertionSort, List.orderedInsert]
  rw [if_pos (by rw [hA, hB]; norm_num)]

/-- Witness for C5: 5 events for A and 2 for B give [A, B]. -/
theorem frequent_ordering_witness :
    frequent [⟨["r"], ["A"], 9⟩, ⟨["r"], ["A"], 7⟩, ⟨["r"], ["A"], 5⟩,
      ⟨["r"], ["A"], 3⟩, ⟨["r"], ["A"], 1⟩, ⟨["r"], ["B"], 8⟩, ⟨["r"], ["B"], 6⟩]
      ["r"] = [["A"], ["B"]] :=
  (frequent_ordering [] ["r"] ["A"] ["B"] 9 7 5 3 1 8 6 (by decide)).2.2

/-- C7: a path all of whose events live under repository `r1` is never
returned by `recent`, `frequent` or `frecent` scoped to a different
repository `r2` (for `frecent`, whatever iteration order the hash map
produces). -/
theorem repository_isolation (db : List Event) (r1 r2 p : FsPath) (now : ℚ)
    (order : List FsPath) (hne : r1 ≠ r2)
    (hp : ∀ e ∈ db, e.path = p → e.repo = r1)
    (horder : order.Perm (pathsOf db r2)) :
    p ∉ recent db r2 ∧ p ∉ frequent db r2 ∧ p ∉ frecentFrom db r2 now order := by
  have hnp : p ∉ pathsOf db r2 := by
    rw [mem_pathsOf]
    rintro ⟨e, he, hrepo, hpath⟩
    exact hne (by rw [← hp e he hpath, hrepo])
  refine ⟨fun h => hnp ?_, fun h => hnp ?_, fun h => hnp ?_⟩
  · exact (List.perm_insertionSort _ _).mem_iff.mp h
  · exact (List.perm_insertionSort _ _).mem_iff.mp h
  · exact ((List.perm_insertionSort _ _).trans horder).mem_iff.mp h

/-- Witness for C7: an event for path A under repository r1 is invisible to
queries scoped to repository r2. -/
theorem repository_isolation_witness :
    ["A"] ∉ recent [⟨["r1"], ["A"], 0⟩] ["r2"] ∧
    ["A"] ∉ frequent [⟨["r1"], ["A"], 0⟩] ["r2"] ∧
    ["A"] ∉ frecentFrom [⟨["r1"], ["A"], 0⟩] ["r2"] 0 [] :=
  repository_isolation [⟨["r1"], ["A"], 0⟩] ["r1"] ["r2"] ["A"] 0 []
    (by decide) (by decide) (by decide)

/-- C8: every ranking operation returns a sequence of distinct paths,
however many events exist per path (for `frecent`, whatever iteration order
the hash map produces). -/
theorem ranking_outputs_nodup (db : List Event) (r : FsPath) (now : ℚ)
    (order : List FsPath) (horder : order.Perm (pathsOf db r)) :
    (recent db r).Nodup ∧ (frequent db r).Nodup ∧ (frecentFrom db r now order).Nodup := by
  have hnd := pathsOf_nodup db r
  refine ⟨?_, ?_, ?_⟩
  · exact ((List.perm_insertionSort _ _).nodup_iff).mpr hnd
  · exact ((List.perm_insertionSort _ _).nodup_iff).mpr hnd
  · exact (((List.perm_insertionSort _ _).trans horder).nodup_iff).mpr hnd

/-- Witness for C8 at a concrete store with a repeatedly recorded path. -/
theorem ranking_outputs_nodup_witness :
    (recent [⟨["r"], ["A"], 0⟩, ⟨["r"], ["A"], 1⟩] ["r"]).Nodup ∧
    (frequent [⟨["r"], ["A"], 0⟩, ⟨["r"], ["A"], 1⟩] ["r"]).Nodup ∧
    (frecentFrom [⟨["r"], ["A"], 0⟩, ⟨["r"], ["A"], 1⟩] ["r"] 2 [["A"]]).Nodup :=
  ranking_outputs_nodup [⟨["r"], ["A"], 0⟩, ⟨["r"], ["A"], 1⟩] ["r"] 2 [["A"]]
    (by decide)

/-- C3: `forget` deletes every stored event of the (repository, path) pair
regardless of timestamp; it succeeds (returning the filtered store), is a
no-op rather than an error when no event matches, and afterwards no ranking
operation for that repository returns the path. -/
theorem forget_total_and_removes (db : List Event) (r p : FsPath) (now : ℚ)
    (order : List FsPath) (horder : order.Perm (pathsOf (deleteRows db r p) r)) :
    forget db r p = Except.ok (deleteRows db r p) ∧
    ((∀ e ∈ db, ¬(e.repo = r ∧ e.path = p)) → forget db r p = Except.ok db) ∧
    p ∉ recent (deleteRows db r p) r ∧
    p ∉ frequent (deleteRows db r p) r ∧
    p ∉ frecentFrom (deleteRows db r p) r now order := by
  have hnp : p ∉ pathsOf (deleteRows db r p) r := by
    rw [mem_pathsOf]
    rintro ⟨e, he, hrepo, hpath⟩
    have hkeep : (!(e.repo == r && e.path == p)) = true := (List.mem_filter.mp he).2
    simp [hrepo, hpath] at hkeep
  refine ⟨rfl, ?_, fun h => hnp ?_, fun h => hnp ?_, fun h => hnp ?_⟩
  · intro hnone
    have hid : deleteRows db r p = db := by
      apply List.filter_eq_self.mpr
      intro e he
      rcases not_and_or.mp (hnone e he) with h2 | h2 <;> simp [h2]
    rw [forget, hid]
  · exact (List.perm_insertionSort _ _).mem_iff.mp h
  · exact (List.perm_insertionSort _ _).mem_iff.mp h
  · exact ((List.perm_insertionSort _ _).trans horder).mem_iff.mp h

/-- Witness for C3: forgetting a never-recorded path is a successful no-op,
and the forgotten path is absent from the rankings. -/
theorem forget_total_and_removes_witness :
    forget [⟨["r"], ["B"], 0⟩] ["r"] ["A"] = Except.ok [⟨["r"], ["B"], 0⟩] ∧
    ["A"] ∉ recent (deleteRows [⟨["r"], ["B"], 0⟩] ["r"] ["A"]) ["r"] := by
  have h := forget_total_and_removes [⟨["r"], ["B"], 0⟩] ["r"] ["A"] 0 [["B"]]
    (by decide)
  exact ⟨h.2.1 (by decide), h.2.2.1⟩

/-- An event whose age is zero days weighs `2 ^ 0 = 1`. -/
theorem weight_age_zero {now t : ℚ} (h : now - t = 0) : weight now t = 1 := by
  rw [weight, ageDays, h]
  simp [half_life_days]

/-- An event whose age is exactly one half-life (30 days) weighs
`2 ^ (-1) = 1 / 2`. -/
theorem weight_age_half_life {now t : ℚ} (h : now - t = 30) : weight now t = 1 / 2 := by
  rw [weight, ageDays, h, half_life_days]
  rw [show -(((30 : ℚ) : ℝ)) / (30 : ℝ) = -1 by push_cast; norm_num]
  rw [Real.rpow_neg_one]
  norm_num

/-- In a two-event store over distinct paths, the first path's score is its
own event's weight. -/
theorem score_pair_fst (r pA pB : FsPath) (tA tB now : ℚ) (hne : pA ≠ pB) :
    score [⟨r, pA, tA⟩, ⟨r, pB, tB⟩] r now pA = weight now tA := by
  simp [score, rowsFor, Ne.symm hne]

/-- In a two-event store over distinct paths, the second path's score is its
own event's weight. -/
theorem score_pair_snd (r pA pB : FsPath) (tA tB now : ℚ) (hne : pA ≠ pB) :
    score [⟨r, pA, tA⟩, ⟨r, pB, tB⟩] r now pB = weight now tB := by
  simp [score, rowsFor, hne]

/-- The grouped paths of the two-event store over distinct paths. -/
theorem pathsOf_pair (r pA pB : FsPath) (tA tB : ℚ) (hne : pA ≠ pB) :
    pathsOf [⟨r, pA, tA⟩, ⟨r, pB, tB⟩] r = [pA, pB] := by
  simp [pathsOf, rowsFor, List.dedup_cons_of_not_mem, hne]

/-- C2: `frecent` weighs each event by `2 ^ (-age_days / 30)` and sums the
weights per path; with one event for path A at age 0 days and one for path B
at age exactly 30 days, A's score is exactly twice B's score, and `frecent`
returns [A, B]. -/
theorem frecent_half_life (r pA pB : FsPath) (tA tB now : ℚ)
    (hne : pA ≠ pB) (hA : now - tA = 0) (hB : now - tB = 30) :
    score [⟨r, pA, tA⟩, ⟨r, pB, tB⟩] r now pA
      = 2 * score [⟨r, pA, tA⟩, ⟨r, pB, tB⟩] r now pB ∧
    frecentFrom [⟨r, pA, tA⟩, ⟨r, pB, tB⟩] r now
      (pathsOf [⟨r, pA, tA⟩, ⟨r, pB, tB⟩] r) = [pA, pB] := by
  have hsA : score [⟨r, pA, tA⟩, ⟨r, pB, tB⟩] r now pA = 1 := by
    rw [score_pair_fst r pA pB tA tB now hne, weight_age_zero hA]
  have hsB : score [⟨r, pA, tA⟩, ⟨r, pB, tB⟩] r now pB = 1 / 2 := by
    rw [score_pair_snd r pA pB tA tB now hne, weight_age_half_life hB]
  constructor
  · rw [hsA, hsB]; norm_num
  · rw [pathsOf_pair r pA pB tA tB hne, frecentFrom]
    simp only [List.insertionSort, List.orderedInsert]
    rw [if_pos (by rw [hsA, hsB]; norm_num)]

/-- Witness for C2: ages 0 and 30 days at `now = 30`. -/
theorem frecent_half_life_witness :
    score [⟨["r"], ["A"], 30⟩, ⟨["r"], ["B"], 0⟩] ["r"] 30 ["A"]
      = 2 * score [⟨["r"], ["A"], 30⟩, ⟨["r"], ["B"], 0⟩] ["r"] 30 ["B"] ∧
    frecentFrom [⟨["r"], ["A"], 30⟩, ⟨["r"], ["B"], 0⟩] ["r"] 30
      (pathsOf [⟨["r"], ["A"], 30⟩, ⟨["r"], ["B"], 0⟩] ["r"]) = [["A"], ["B"]] :=
  frecent_half_life ["r"] ["A"] ["B"] 30 0 30 (by decide) (by norm_num) (by norm_num)

/-- Two lists that are permutations of each other, drawn from a set of paths
on which the score is injective, and both sorted descending by score, are
equal. -/
theorem sorted_desc_perm_unique (f : FsPath → ℝ) (S : List FsPath)
    (hinj : ∀ a ∈ S, ∀ b ∈ S, f a = f b → a = b) :
    ∀ l₁ l₂ : List FsPath, l₁.Perm l₂ → (∀ x ∈ l₁, x ∈ S) →
      l₁.Pairwise (fun a b => f b ≤ f a) → l₂.Pairwise (fun a b => f b ≤ f a) →
      l₁ = l₂ := by
  intro l₁
  induction l₁ with
  | nil =>
    intro l₂ hp _ _ _
    cases l₂ with
    | nil => rfl
    | cons b t₂ => simpa using hp.length_eq
  | cons a t ih =>
    intro l₂ hp hsub hs₁ hs₂
    cases l₂ with
    | nil => simpa using hp.length_eq
    | cons b t₂ =>
      have haS : a ∈ S := hsub a (List.mem_cons_self a t)
      have hbl₁ : b ∈ a :: t := hp.mem_iff.mpr (List.mem_cons_self b t₂)
      have hbS : b ∈ S := hsub b hbl₁
      have hamem : a ∈ b :: t₂ := hp.mem_iff.mp (List.mem_cons_self a t)
      have h₁ : f a ≤ f b := by
        rcases List.mem_cons.mp hamem with h | h
        · rw [h]
        · exact List.rel_of_pairwise_cons hs₂ h
      have h₂ : f b ≤ f a := by
        rcases List.mem_cons.mp hbl₁ with h | h
        · rw [h]
        · exact List.rel_of_pairwise_cons hs₁ h
      have hab : a = b := hinj a haS b hbS (le_antisymm h₁ h₂)
      subst hab
      have hrec := ih t₂ hp.cons_inv (fun x hx => hsub x (List.mem_cons_of_mem a hx))
        (List.pairwise_cons.mp hs₁).2 (List.pairwise_cons.mp hs₂).2
      rw [hrec]

/-- C6 counterexample: with two paths recorded once each at the same
timestamp their summed weights are equal, and `frecent` run from the two
hash-map iteration orders (both permutations of the same key set, each a
possible iteration order of the per-call randomised `HashMap`) returns
different sequences, so `frecent` is not a function of the stored state and
the query time alone. -/
theorem frecent_not_pure_counterexample :
    [(["A"] : FsPath), ["B"]].Perm
      (pathsOf [⟨["r"], ["A"], 0⟩, ⟨["r"], ["B"], 0⟩] ["r"]) ∧
    [(["B"] : FsPath), ["A"]].Perm
      (pathsOf [⟨["r"], ["A"], 0⟩, ⟨["r"], ["B"], 0⟩] ["r"]) ∧
    frecentFrom [⟨["r"], ["A"], 0⟩, ⟨["r"], ["B"], 0⟩] ["r"] 0 [["A"], ["B"]] ≠
      frecentFrom [⟨["r"], ["A"], 0⟩, ⟨["r"], ["B"], 0⟩] ["r"] 0 [["B"], ["A"]] := by
  have hne : (["A"] : FsPath) ≠ ["B"] := by decide
  have hsA : score [⟨["r"], ["A"], 0⟩, ⟨["r"], ["B"], 0⟩] ["r"] 0 ["A"] = 1 := by
    rw [score_pair_fst ["r"] ["A"] ["B"] 0 0 0 hne, weight_age_zero (by norm_num)]
  have hsB : score [⟨["r"], ["A"], 0⟩, ⟨["r"], ["B"], 0⟩] ["r"] 0 ["B"] = 1 := by
    rw [score_pair_snd ["r"] ["A"] ["B"] 0 0 0 hne, weight_age_zero (by norm_num)]
  refine ⟨by decide, by decide, ?_⟩
  have h₁ : frecentFrom [⟨["r"], ["A"], 0⟩, ⟨["r"], ["B"], 0⟩] ["r"] 0
      [["A"], ["B"]] = [["A"], ["B"]] := by
    rw [frecentFrom]
    simp only [List.insertionSort, List.orderedInsert]
    rw [if_pos (by rw [hsA, hsB])]
  have h₂ : frecentFrom [⟨["r"], ["A"], 0⟩, ⟨["r"], ["B"], 0⟩] ["r"] 0
      [["B"], ["A"]] = [["B"], ["A"]] := by
    rw [frecentFrom]
    simp only [List.insertionSort, List.orderedInsert]
    rw [if_pos (by rw [hsA, hsB])]
  rw [h₁, h₂]
  decide

/-- C6 as amended: `recent` and `frequent` read the store through
deterministic SQL queries (functions of the stored state in this model), and
`frecent` invoked twice with the same stored state and the same query time
returns identical sequences whenever no two stored paths have equal summed
weights — only the relative order of exactly tied scores depends on the
hash map's per-call iteration order. -/
theorem frecent_deterministic_without_ties (db : List Event) (r : FsPath)
    (now : ℚ) (o₁ o₂ : List FsPath)
    (h₁ : o₁.Perm (pathsOf db r)) (h₂ : o₂.Perm (pathsOf db r))
    (hinj : ∀ a ∈ pathsOf db r, ∀ b ∈ pathsOf db r,
      score db r now a = score db r now b → a = b) :
    frecentFrom db r now o₁ = frecentFrom db r now o₂ := by
  apply sorted_desc_perm_unique (score db r now) (pathsOf db r) hinj
  · exact (List.perm_insertionSort _ _).trans
      (h₁.trans (((List.perm_insertionSort _ _).trans h₂).symm))
  · intro x hx
    exact (((List.perm_insertionSort _ _).trans h₁).mem_iff).mp hx
  · exact sorted_key_desc (score db r now) o₁
  · exact sorted_key_desc (score db r now) o₂

/-- Witness for the amended C6 at a one-path store, where the score is
trivially injective on the key set. -/
theorem frecent_deterministic_without_ties_witness :
    frecentFrom [⟨["r"], ["A"], 0⟩] ["r"] 0 [["A"]] =
      frecentFrom [⟨["r"], ["A"], 0⟩] ["r"] 0 [["A"]] :=
  frecent_deterministic_without_ties [⟨["r"], ["A"], 0⟩] ["r"] 0 [["A"]] [["A"]]
    (by decide) (by decide)
    (by
      have hp : pathsOf [⟨["r"], ["A"], 0⟩] ["r"] = [["A"]] := by decide
      rw [hp]
      intro a ha b hb _
      simp only [List.mem_singleton] at ha hb
      rw [ha, hb])

end Empath
